import Mathlib

/-!
Verification of the dynamical-systems computation engine of the chaos-viz
repository: the cobweb/bisection helpers in `src/utils/cobweb.ts` and the
bifurcation-sweep and live iteration engines in `src/sketches/wrap.ts`.

JS numbers are modelled as rationals (`ℚ`); machine floating point is out of
scope, the claims under study are about algorithmic structure.  Non-finiteness
of values produced by a user-supplied function (`isFinite` in the source) is
modelled by an explicit finiteness oracle passed alongside the function, since
`ℚ` itself has no non-finite elements.
-/

namespace ChaosViz

/-! ## Embedding of src/utils/cobweb.ts -/

/-- Body of the `for` loop of `cobwebPath` in cobweb.ts: each pass computes
`y = f x`, pushes the flat coordinates `x, y` (vertical endpoint) and `y, y`
(horizontal endpoint), sets `x := y`, and breaks when `isFinite(x)` fails. -/
def cobwebLoop (f : ℚ → ℚ) (fin : ℚ → Bool) : ℚ → ℕ → List ℚ
  | _, 0 => []
  | x, n + 1 =>
    let y := f x
    x :: y :: y :: y :: (if fin y then cobwebLoop f fin y n else [])

/-- Embedding of `cobwebPath(f, x0, n)` from cobweb.ts: the flat
`[x0, 0, x0, x1, x1, x1, x1, x2, x2, x2, ...]` coordinate list. -/
def cobwebPath (f : ℚ → ℚ) (fin : ℚ → Bool) (x0 : ℚ) (n : ℕ) : List ℚ :=
  x0 :: 0 :: cobwebLoop f fin x0 n

/-- Written from the spec sentence for claim C8 (not from the source): per
iterate, the pair `(x, f x)` (vertical endpoint) then `(f x, f x)` (horizontal
endpoint) are appended, and building stops at the first non-finite value. -/
def cobwebPairsSpec (f : ℚ → ℚ) (fin : ℚ → Bool) : ℚ → ℕ → List (ℚ × ℚ)
  | _, 0 => []
  | x, n + 1 =>
    (x, f x) :: (f x, f x) ::
      (if fin (f x) then cobwebPairsSpec f fin (f x) n else [])

/-- Written from the spec sentence for claim C8: the path starts with the pair
`(x0, 0)` and continues with the vertical/horizontal endpoint pairs. -/
def cobwebPathSpec (f : ℚ → ℚ) (fin : ℚ → Bool) (x0 : ℚ) (n : ℕ) :
    List (ℚ × ℚ) :=
  (x0, 0) :: cobwebPairsSpec f fin x0 n

/-- Flatten a list of coordinate pairs into the flat `[x0, y0, x1, y1, ...]`
shape that cobweb.ts produces. -/
def flattenPairs : List (ℚ × ℚ) → List ℚ
  | [] => []
  | p :: rest => p.1 :: p.2 :: flattenPairs rest

/-- The 64-round bisection loop of `invertNumerically` in cobweb.ts.  The
recursion argument is the remaining iteration count (64 at the top call); the
loop exits early once `hi - lo < tol`.  `flo` is the sign reference
`C(xMin) - y` captured before the loop. -/
def bisectLoop (C : ℚ → ℚ) (y flo tol : ℚ) : ℕ → ℚ → ℚ → ℚ × ℚ
  | 0, lo, hi => (lo, hi)
  | n + 1, lo, hi =>
    if hi - lo < tol then (lo, hi)
    else
      let mid := (lo + hi) / 2
      if (C mid - y < 0) ↔ (flo < 0) then bisectLoop C y flo tol n mid hi
      else bisectLoop C y flo tol n lo mid

/-- Embedding of `invertNumerically(C, y, xMin, xMax, tol)` from cobweb.ts:
returns `none` when `(C xMin - y) * (C xMax - y) > 0`, otherwise the midpoint
of the final bisection bracket after at most 64 rounds. -/
def invertNumerically (C : ℚ → ℚ) (y xMin xMax tol : ℚ) : Option ℚ :=
  let flo := C xMin - y
  let fhi := C xMax - y
  if flo * fhi > 0 then none
  else
    let lh := bisectLoop C y flo tol 64 xMin xMax
    some ((lh.1 + lh.2) / 2)

/-! ## Embedding of the bifurcation sweep (`compute` in wrap.ts) -/

/-- The divergence threshold `1e10` used by both engines in wrap.ts. -/
def DIVERGE_LIMIT : ℚ := 10 ^ 10

/-- The bifurcation period tolerance `tol = 1e-5` in `compute`. -/
def BIF_TOL : ℚ := 1 / 10 ^ 5

/-- The power-of-two search depth `S = 12` in `compute`. -/
def bifS : ℕ := 12

/-- The trajectory stored in `xArr`/`yArr`: state `0` is the initial
condition, state `i+1` is `step` applied to state `i`. -/
def traj (step : ℚ × ℚ → ℚ × ℚ) (ic : ℚ × ℚ) : ℕ → ℚ × ℚ
  | 0 => ic
  | n + 1 => step (traj step ic n)

/-- The x component of the trajectory for sweep value `a`
(`stepAt a` is `mapDef.step` with the swept parameter set to `a`). -/
def trajX (stepAt : ℚ → ℚ × ℚ → ℚ × ℚ) (ic : ℚ × ℚ) (a : ℚ) (i : ℕ) : ℚ :=
  (traj (stepAt a) ic i).1

/-- The y component of the trajectory for sweep value `a`. -/
def trajY (stepAt : ℚ → ℚ × ℚ → ℚ × ℚ) (ic : ℚ × ℚ) (a : ℚ) (i : ℕ) : ℚ :=
  (traj (stepAt a) ic i).2

/-- The `diverged` flag computed by the inner iteration loop of `compute`:
the loop breaks at the first `i < N` with `|xArr[i+1]| > 1e10`, so the flag
holds exactly when some such `i` exists.  Note the source tests only the x
coordinate (`xArr`). -/
def divergedB (step : ℚ × ℚ → ℚ × ℚ) (ic : ℚ × ℚ) (N : ℕ) : Bool :=
  (List.range N).any (fun i => decide (DIVERGE_LIMIT < |(traj step ic (i + 1)).1|))

/-- The period-search loop of `compute` (`for j = 0; j <= S; j++`): carries
the current `period` and `found` values; breaks when `2^j > N`; on the first
`j` with `|xArr[N] - xArr[N - 2^j]| < tol` (note: x coordinate only) it sets
`found` and records `period = j`, and the `!found` guard keeps any later match
from overwriting it. -/
def bifSearchLoop (x : ℕ → ℚ) (N : ℕ) : List ℕ → ℕ → Bool → ℕ × Bool
  | [], period, found => (period, found)
  | j :: rest, period, found =>
    if N < 2 ^ j then (period, found)
    else if |x N - x (N - 2 ^ j)| < BIF_TOL ∧ found = false then
      bifSearchLoop x N rest j true
    else bifSearchLoop x N rest period found

/-- The full period search of `compute`: `period` starts at `S = 12`,
`found` starts false, candidates are `j = 0..12`. -/
def bifSearch (x : ℕ → ℚ) (N : ℕ) : ℕ × Bool :=
  bifSearchLoop x N (List.range (bifS + 1)) bifS false

/-- Embedding of `orbitLen` in `compute`: the detected period `2^period` when found,
otherwise `min 256 N`. -/
def orbitLen (x : ℕ → ℚ) (N : ℕ) : ℕ :=
  let pf := bifSearch x N
  if pf.2 then 2 ^ pf.1 else min 256 N

/-- The emit loop of `compute` for one sweep value: pushes `(a, x k, y k)` for
`k = start, ..., N` where `start = N - orbitLen`. -/
def emitAt (x y : ℕ → ℚ) (a : ℚ) (N : ℕ) : List (ℚ × ℚ × ℚ) :=
  (List.range' (N - orbitLen x N) (orbitLen x N + 1)).map (fun k => (a, x k, y k))

/-- Embedding of `periodDoublings.has`, with the JS `Map` modelled as an insertion-ordered
association list. -/
def hasKey (tbl : List (ℕ × ℚ)) (k : ℕ) : Bool :=
  tbl.any (fun e => e.1 == k)

/-- The per-sweep-value body of `compute`, folded over the list of sweep
values: a diverged value contributes nothing (`continue`); otherwise the
period search runs, `(2^period, a)` is recorded once per fresh period key, and
the trajectory tail is appended to `points`. -/
def computeLoop (stepAt : ℚ → ℚ × ℚ → ℚ × ℚ) (ic : ℚ × ℚ) (N : ℕ) :
    List ℚ → List (ℚ × ℚ × ℚ) × List (ℕ × ℚ) → List (ℚ × ℚ × ℚ) × List (ℕ × ℚ)
  | [], acc => acc
  | a :: rest, (pts, tbl) =>
    if divergedB (stepAt a) ic N then computeLoop stepAt ic N rest (pts, tbl)
    else
      let x := trajX stepAt ic a
      let y := trajY stepAt ic a
      let pf := bifSearch x N
      let dp := 2 ^ pf.1
      let tbl1 := if pf.2 = true ∧ hasKey tbl dp = false then tbl ++ [(dp, a)] else tbl
      computeLoop stepAt ic N rest (pts ++ emitAt x y a N, tbl1)

/-- Embedding of `compute` of wrap.ts, parametrised by the list of swept values (the JS
loop `for (a = paramMin; a <= paramMax; a += dParam)` enumerates them in
ascending order): returns `(points, periodDoublings)`. -/
def compute (stepAt : ℚ → ℚ × ℚ → ℚ × ℚ) (ic : ℚ × ℚ) (N : ℕ) (as : List ℚ) :
    List (ℚ × ℚ × ℚ) × List (ℕ × ℚ) :=
  computeLoop stepAt ic N as ([], [])

/-- The plot points one sweep value contributes to `points`: nothing when
diverged, otherwise the emitted trajectory tail. -/
def sweepContribution (stepAt : ℚ → ℚ × ℚ → ℚ × ℚ) (ic : ℚ × ℚ) (N : ℕ) (a : ℚ) :
    List (ℚ × ℚ × ℚ) :=
  if divergedB (stepAt a) ic N then []
  else emitAt (trajX stepAt ic a) (trajY stepAt ic a) a N

/-- Concatenation of the per-value contributions, in sweep order. -/
def sweepPoints (stepAt : ℚ → ℚ × ℚ → ℚ × ℚ) (ic : ℚ × ℚ) (N : ℕ) :
    List ℚ → List (ℚ × ℚ × ℚ)
  | [] => []
  | a :: rest => sweepContribution stepAt ic N a ++ sweepPoints stepAt ic N rest

/-- The per-value outcome of the sweep as far as the period-doubling table is
concerned: `some (2^period)` when the value neither diverged nor failed the
period search, `none` otherwise. -/
def sweepOutcome (stepAt : ℚ → ℚ × ℚ → ℚ × ℚ) (ic : ℚ × ℚ) (N : ℕ) (a : ℚ) :
    Option ℕ :=
  if divergedB (stepAt a) ic N then none
  else
    let pf := bifSearch (trajX stepAt ic a) N
    if pf.2 then some (2 ^ pf.1) else none

/-- The period-doubling table produced by folding the first-occurrence
insertion over the sweep values. -/
def tableGo (out : ℚ → Option ℕ) : List ℚ → List (ℕ × ℚ) → List (ℕ × ℚ)
  | [], tbl => tbl
  | a :: rest, tbl =>
    match out a with
    | some dp => tableGo out rest (if hasKey tbl dp then tbl else tbl ++ [(dp, a)])
    | none => tableGo out rest tbl

/-! ## Embedding of the live iteration engine (`mountIteration` in wrap.ts) -/

/-- The transient cutoff `TRANSIENT = 500` of the live engine. -/
def TRANSIENT : ℕ := 500

/-- The live-engine period tolerance `PERIOD_TOL = 1e-8`. -/
def PERIOD_TOL : ℚ := 1 / 10 ^ 8

/-- The candidate-period cap `MAX_PERIOD_CHECK = 128`. -/
def MAX_PERIOD_CHECK : ℕ := 128

/-- The mutable closure state of `mountIteration`. -/
structure IterSt where
  orbit : List (ℚ × ℚ)
  icX : ℚ
  icY : ℚ
  curX : ℚ
  curY : ℚ
  curStep : ℕ
  waiting : Bool
  diverged : Bool
  historyX : List ℚ
  historyY : List ℚ
  detectedPeriod : Option ℕ
  cyclePoints : List (ℚ × ℚ)
deriving DecidableEq

/-- Static configuration of one live run: the map step with its parameters
applied, and the `iterates`, `lag`, `speed` settings. -/
structure IterCfg where
  stepF : ℚ × ℚ → ℚ × ℚ
  iterates : ℕ
  lag : ℕ
  speed : ℕ

/-- One check of the inner mismatch loop of `detectPeriod` at candidate
period `p`, position `i` from the end: `idx = len - 1 - i`,
`prevIdx = idx - p`; a negative `prevIdx` fails the match (as in the source),
otherwise both coordinates must agree within `PERIOD_TOL` (the source breaks
on either difference exceeding it). -/
def periodMatchAt (hx hy : List ℚ) (len p i : ℕ) : Bool :=
  if len - 1 - i < p then false
  else
    decide (|hx.getD (len - 1 - i) 0 - hx.getD (len - 1 - i - p) 0| ≤ PERIOD_TOL) &&
    decide (|hy.getD (len - 1 - i) 0 - hy.getD (len - 1 - i - p) 0| ≤ PERIOD_TOL)

/-- Whether candidate period `p` fully matches: the source checks
`Math.min(p * 2, len - p)` positions from the end. -/
def periodMatches (hx hy : List ℚ) (len p : ℕ) : Bool :=
  (List.range (min (p * 2) (len - p))).all (fun i => periodMatchAt hx hy len p i)

/-- The candidate loop of `detectPeriod`: `p = 1, ..., min(128, ⌊len/2⌋)`,
first full match wins. -/
def findPeriod (hx hy : List ℚ) (len : ℕ) : Option ℕ :=
  (List.range' 1 (min MAX_PERIOD_CHECK (len / 2))).find?
    (fun p => periodMatches hx hy len p)

/-- The `cyclePoints` extraction on success: states at history indices
`len - p + i` for `i = 0, ..., p - 1`. -/
def cycleOf (hx hy : List ℚ) (len p : ℕ) : List (ℚ × ℚ) :=
  (List.range p).map (fun i => (hx.getD (len - p + i) 0, hy.getD (len - p + i) 0))

/-- Embedding of `detectPeriod()` of wrap.ts as a state transformer: returns unchanged
when the history is shorter than 2; on a first full match it sets
`detectedPeriod` and `cyclePoints`; otherwise it sets `detectedPeriod` to
null and leaves `cyclePoints` untouched. -/
def applyDetect (s : IterSt) : IterSt :=
  if s.historyX.length < 2 then s
  else
    match findPeriod s.historyX s.historyY s.historyX.length with
    | some p =>
      { s with detectedPeriod := some p
               cyclePoints := cycleOf s.historyX s.historyY s.historyX.length p }
    | none => { s with detectedPeriod := none }

/-- One application of the map inside the per-frame loop of `p.draw`:
computes the next state, makes it current, increments `curStep`; if either
new coordinate exceeds `1e10` in magnitude it only sets `diverged`; otherwise
it appends to the orbit tail (evicting the oldest element beyond `lag`) and,
past the transient, appends to the period-detection history. -/
def applyOnce (cfg : IterCfg) (s : IterSt) : IterSt :=
  let nxy := cfg.stepF (s.curX, s.curY)
  let s1 := { s with curX := nxy.1, curY := nxy.2, curStep := s.curStep + 1 }
  if DIVERGE_LIMIT < |nxy.1| ∨ DIVERGE_LIMIT < |nxy.2| then
    { s1 with diverged := true }
  else
    let orbit1 := s1.orbit ++ [(nxy.1, nxy.2)]
    let orbit2 := if cfg.lag < orbit1.length then orbit1.drop 1 else orbit1
    let s2 := { s1 with orbit := orbit2 }
    if TRANSIENT < s2.curStep then
      { s2 with historyX := s2.historyX ++ [nxy.1], historyY := s2.historyY ++ [nxy.2] }
    else s2

/-- The `for (let i = 0; i < speed; i++)` loop of `p.draw`: breaks as soon as
the iteration budget is exhausted or the run diverged. -/
def innerLoop (cfg : IterCfg) : ℕ → IterSt → IterSt
  | 0, s => s
  | n + 1, s =>
    if cfg.iterates ≤ s.curStep ∨ s.diverged = true then s
    else innerLoop cfg n (applyOnce cfg s)

/-- The guarded iteration burst of `p.draw` (`if (!diverged && curStep <
iterates) { for ...; if (detectedPeriod === null && historyX.length >
MAX_PERIOD_CHECK * 3) detectPeriod() }`). -/
def tickBurst (cfg : IterCfg) (s : IterSt) : IterSt :=
  if s.diverged = false ∧ s.curStep < cfg.iterates then
    let t := innerLoop cfg cfg.speed s
    if t.detectedPeriod = none ∧ MAX_PERIOD_CHECK * 3 < t.historyX.length then
      applyDetect t
    else t
  else s

/-- The tail of `p.draw`: a diverged run only draws a banner; a run that
exhausted its iteration budget makes a final detection attempt. -/
def tickFinal (cfg : IterCfg) (s1 : IterSt) : IterSt :=
  if s1.diverged then s1
  else if cfg.iterates ≤ s1.curStep then
    if s1.detectedPeriod = none ∧ 2 < s1.historyX.length then applyDetect s1
    else s1
  else s1

/-- One animation tick of `p.draw`, restricted to its state mutations: an
early return while waiting, otherwise the guarded iteration burst followed by
the final-detection tail. -/
def tick (cfg : IterCfg) (s : IterSt) : IterSt :=
  if s.waiting then s
  else tickFinal cfg (tickBurst cfg s)

/-- Embedding of `beginOrbit(x, y)` of wrap.ts (the `startAt`/seed entry point): resets
every run field and clears the diverged flag. -/
def beginOrbit (x y : ℚ) : IterSt :=
  { orbit := [(x, y)], icX := x, icY := y, curX := x, curY := y, curStep := 0
    waiting := false, diverged := false, historyX := [], historyY := []
    detectedPeriod := none, cyclePoints := [] }

/-- Embedding of `doReset()` of wrap.ts: back to the waiting state, diverged cleared. -/
def doReset : IterSt :=
  { orbit := [], icX := 0, icY := 0, curX := 0, curY := 0, curStep := 0
    waiting := true, diverged := false, historyX := [], historyY := []
    detectedPeriod := none, cyclePoints := [] }

/-- The snapshot returned by `getState()`. -/
structure IterationState where
  x : ℚ
  y : ℚ
  step : ℕ
  waiting : Bool
  icX : ℚ
  icY : ℚ
  detectedPeriod : Option ℕ
  cyclePoints : List (ℚ × ℚ)
deriving DecidableEq

/-- Embedding of `getState()` of wrap.ts. -/
def getState (s : IterSt) : IterationState :=
  { x := s.curX, y := s.curY, step := s.curStep, waiting := s.waiting
    icX := s.icX, icY := s.icY, detectedPeriod := s.detectedPeriod
    cyclePoints := s.cyclePoints }

/-- Engine state extended with the scrubbing view.  The `setPlaybackStep`
implementation is absent from the checked-in sketch module (only its caller in
the map page survives), so the playback layer is modelled from the spec. -/
structure PlaybackSt where
  sim : IterSt
  playbackStep : Option ℕ

/-- Modelled from the spec: `setPlaybackStep(k or null)` is missing from the
checked-in wrap.ts; per the spec it freezes the displayed state to step `k`
(null returns to live) and is a purely read-side view, mutating nothing of the
underlying simulation. -/
def setPlaybackStep (k : Option ℕ) (e : PlaybackSt) : PlaybackSt :=
  { e with playbackStep := k }

/-- Modelled from the spec: the displayed state under scrubbing is the state
`advance()` would have produced after exactly `k` applications from the same
initial condition, and the live state when `playbackStep` is null. -/
def displayedState (stepF : ℚ × ℚ → ℚ × ℚ) (e : PlaybackSt) : ℚ × ℚ :=
  match e.playbackStep with
  | some k => traj stepF (e.sim.icX, e.sim.icY) k
  | none => (e.sim.curX, e.sim.curY)

/-- The invariant justifying deterministic scrubbing: the current state is the
`curStep`-fold application of the map to the initial condition. -/
def curInv (cfg : IterCfg) (s : IterSt) : Prop :=
  (s.curX, s.curY) = traj cfg.stepF (s.icX, s.icY) s.curStep

/-! ## Concrete instances used by counterexamples and witnesses -/

/-- The period-search condition of claim C1, restated with both coordinates
checked (the spec reading); the source checks only x. -/
def bifCondXY (stepAt : ℚ → ℚ × ℚ → ℚ × ℚ) (ic : ℚ × ℚ) (a : ℚ) (N j : ℕ) : Prop :=
  2 ^ j ≤ N ∧
    |trajX stepAt ic a N - trajX stepAt ic a (N - 2 ^ j)| < BIF_TOL ∧
    |trajY stepAt ic a N - trajY stepAt ic a (N - 2 ^ j)| < BIF_TOL

/-- A 2D map whose x coordinate is constant and whose y coordinate drifts by
one each step: the x-only period search fires although y never repeats. -/
def stepYShift : ℚ → ℚ × ℚ → ℚ × ℚ := fun _ p => (p.1, p.2 + 1)

/-- A 2D map that blows up in y while x stays at zero: the x-only divergence
test never fires. -/
def stepYBlow : ℚ → ℚ × ℚ → ℚ × ℚ := fun _ _ => (0, 2 * 10 ^ 10)

/-- A 2D map that immediately exceeds the divergence threshold in x. -/
def stepXBlow : ℚ → ℚ × ℚ → ℚ × ℚ := fun _ _ => (2 * 10 ^ 10, 0)

/-- The constant map fixed at the origin: a period-1 orbit. -/
def stepConst : ℚ → ℚ × ℚ → ℚ × ℚ := fun _ _ => (0, 0)

/-- The identity map: every orbit is a fixed point. -/
def stepId : ℚ → ℚ × ℚ → ℚ × ℚ := fun _ p => p

/-- A monotone step function with a jump at `1/3`: bisection localises the
jump but cannot bring `|C v - y|` below any small tolerance. -/
def stepSign (x : ℚ) : ℚ := if x < 1 / 3 then -1 else 1

/-- A live-engine configuration whose map leaves the plot region instantly. -/
def blowCfg : IterCfg := ⟨fun _ => (10 ^ 11, 0), 10, 50, 1⟩

/-- A live-engine state already marked diverged. -/
def divergedSt : IterSt := { beginOrbit 0 0 with diverged := true }

/-- A two-entry post-transient history sitting on a fixed point. -/
def detectSt : IterSt := { doReset with historyX := [5, 5], historyY := [7, 7] }

/-- The spec-side reading of the live period-match test at candidate `p` on a
history of length `L`: each of the last `min(2p, L-p)` entries agrees with the
entry `p` positions earlier within `PERIOD_TOL` on both coordinates. -/
def lagAgrees (hx hy : List ℚ) (L p : ℕ) : Prop :=
  ∀ i < min (2 * p) (L - p),
    |hx.getD (L - 1 - i) 0 - hx.getD (L - 1 - i - p) 0| ≤ PERIOD_TOL ∧
    |hy.getD (L - 1 - i) 0 - hy.getD (L - 1 - i - p) 0| ≤ PERIOD_TOL

/-! ## Cobweb path (claim C8) -/

theorem cobwebLoop_flatten (f : ℚ → ℚ) (fin : ℚ → Bool) :
    ∀ (n : ℕ) (x : ℚ), cobwebLoop f fin x n = flattenPairs (cobwebPairsSpec f fin x n)
  | 0, _ => rfl
  | n + 1, x => by
    simp only [cobwebLoop, cobwebPairsSpec, flattenPairs]
    cases hfy : fin (f x) with
    | true => simp [hfy, cobwebLoop_flatten f fin n (f x)]
    | false => simp [hfy, flattenPairs]

/-- Claim C8: for every function `f`, initial point `x0` and `n ≥ 0`, the
cobweb path starts with the pair `(x0, 0)` and then, for each iterate, appends
the vertical endpoint `(x, f x)` followed by the horizontal endpoint
`(f x, f x)`, truncating at the first non-finite value: the code path is the
flattening of the pair path read off the spec. -/
theorem cobwebPath_matches_spec (f : ℚ → ℚ) (fin : ℚ → Bool) (x0 : ℚ) (n : ℕ) :
    cobwebPath f fin x0 n = flattenPairs (cobwebPathSpec f fin x0 n) ∧
    (cobwebPath f fin x0 n).take 2 = [x0, 0] := by
  constructor
  · simp [cobwebPath, cobwebPathSpec, flattenPairs, cobwebLoop_flatten]
  · rfl

/-! ## Numeric inversion (claim C9) -/

theorem bisectLoop_bracket (C : ℚ → ℚ) (y flo tol : ℚ) :
    ∀ (n : ℕ) (lo hi : ℚ), lo ≤ hi →
      lo ≤ (bisectLoop C y flo tol n lo hi).1 ∧
      (bisectLoop C y flo tol n lo hi).1 ≤ (bisectLoop C y flo tol n lo hi).2 ∧
      (bisectLoop C y flo tol n lo hi).2 ≤ hi
  | 0, lo, hi, h => ⟨le_refl lo, h, le_refl hi⟩
  | n + 1, lo, hi, h => by
    simp only [bisectLoop]
    by_cases hd : hi - lo < tol
    · simp only [if_pos hd]
      exact ⟨le_refl lo, h, le_refl hi⟩
    · simp only [if_neg hd]
      have hlo : lo ≤ (lo + hi) / 2 := by linarith
      have hhi : (lo + hi) / 2 ≤ hi := by linarith
      by_cases hc : (C ((lo + hi) / 2) - y < 0) ↔ (flo < 0)
      · simp only [if_pos hc]
        have ih := bisectLoop_bracket C y flo tol n ((lo + hi) / 2) hi hhi
        exact ⟨le_trans hlo ih.1, ih.2.1, ih.2.2⟩
      · simp only [if_neg hc]
        have ih := bisectLoop_bracket C y flo tol n lo ((lo + hi) / 2) hlo
        exact ⟨ih.1, ih.2.1, le_trans ih.2.2 hhi⟩

/-- Claim C9 (amended): `invertNumerically` returns `none` exactly when
`(C xMin - y) * (C xMax - y) > 0`; otherwise it returns a value inside
`[xMin, xMax]` (the midpoint of the final bisection bracket).  It does not
guarantee `|C v - y| ≤ tol`: `tol` only bounds the bracket width. -/
theorem invertNumerically_bracket (C : ℚ → ℚ) (y xMin xMax tol : ℚ)
    (hle : xMin ≤ xMax) :
    (invertNumerically C y xMin xMax tol = none ↔ (C xMin - y) * (C xMax - y) > 0) ∧
    ∀ v, invertNumerically C y xMin xMax tol = some v → xMin ≤ v ∧ v ≤ xMax := by
  by_cases h : (C xMin - y) * (C xMax - y) > 0
  · constructor
    · simp [invertNumerically, h]
    · intro v hv
      simp [invertNumerically, h] at hv
  · have hb := bisectLoop_bracket C y (C xMin - y) tol 64 xMin xMax hle
    constructor
    · simp [invertNumerically, h]
    · intro v hv
      simp only [invertNumerically, if_neg h, Option.some.injEq] at hv
      subst hv
      exact ⟨by linarith [hb.1, hb.2.1, hb.2.2], by linarith [hb.1, hb.2.1, hb.2.2]⟩

/-- Witness for the amended claim C9 at the identity map on `[0, 1]`. -/
theorem invertNumerically_bracket_witness :
    ((0 : ℚ) ≤ 1) ∧
    ((invertNumerically (fun x => x) 0 0 1 (1 / 10 ^ 10) = none ↔
        ((0 : ℚ) - 0) * ((1 : ℚ) - 0) > 0) ∧
      ∀ v, invertNumerically (fun x => x) 0 0 1 (1 / 10 ^ 10) = some v →
        0 ≤ v ∧ v ≤ 1) :=
  ⟨by norm_num, invertNumerically_bracket (fun x => x) 0 0 1 (1 / 10 ^ 10) (by norm_num)⟩

theorem bisectLoop_done (C : ℚ → ℚ) (y flo tol : ℚ) (n : ℕ) (lo hi : ℚ)
    (h : hi - lo < tol) : bisectLoop C y flo tol n lo hi = (lo, hi) := by
  cases n with
  | zero => rfl
  | succ m => simp [bisectLoop, h]

/-- Counterexample to claim C9 as stated: for the monotone jump map
`stepSign`, `stepSign xMin - y` and `stepSign xMax - y` have opposite signs,
yet the returned value `v = 3/8` has `|stepSign v - y| = 1 > tol = 1/2`. -/
theorem invertNumerically_tol_counterexample :
    (stepSign 0 - 0 < 0 ∧ 0 < stepSign 1 - 0) ∧
    invertNumerically stepSign 0 0 1 (1 / 2) = some (3 / 8) ∧
    ¬(|stepSign (3 / 8) - 0| ≤ 1 / 2) := by
  have hb : bisectLoop stepSign 0 (stepSign 0 - 0) (1 / 2) 64 0 1 = (1 / 4, 1 / 2) := by
    rw [show (64 : ℕ) = 63 + 1 from rfl, bisectLoop]
    norm_num [stepSign]
    rw [show (63 : ℕ) = 62 + 1 from rfl, bisectLoop]
    norm_num [stepSign]
    rw [bisectLoop_done]
    norm_num
  refine ⟨⟨by norm_num [stepSign], by norm_num [stepSign]⟩, ?_, by norm_num [stepSign]⟩
  simp only [invertNumerically, hb]
  norm_num [stepSign]

/-! ## Bifurcation period search (claim C1) -/

theorem bifSearchLoop_found (x : ℕ → ℚ) (N : ℕ) :
    ∀ (js : List ℕ) (period : ℕ), bifSearchLoop x N js period true = (period, true)
  | [], _ => rfl
  | j :: rest, period => by
    simp only [bifSearchLoop]
    split_ifs with h1 h2
    · rfl
    · exact absurd h2.2 (by simp)
    · exact bifSearchLoop_found x N rest period

theorem find?_range'_first (f : ℕ → Bool) :
    ∀ (k s p : ℕ),
      ((List.range' s k).find? f = some p ↔
        (s ≤ p ∧ p < s + k ∧ f p = true ∧ ∀ q, s ≤ q → q < p → f q = false))
  | 0, s, p => by
    simp only [List.range', List.find?]
    constructor
    · intro h; cases h
    · rintro ⟨h1, h2, _, _⟩; omega
  | k + 1, s, p => by
    rw [List.range'_succ]
    by_cases hfs : f s = true
    · rw [List.find?_cons_of_pos _ hfs]
      constructor
      · intro h
        injection h with h
        subst h
        exact ⟨le_refl _, by omega, hfs, fun q hq1 hq2 => absurd hq1 (by omega)⟩
      · rintro ⟨h1, h2, _, h4⟩
        by_cases hps : p = s
        · subst hps; rfl
        · have hq := h4 s (le_refl s) (by omega)
          rw [hfs] at hq
          cases hq
    · rw [List.find?_cons_of_neg _ hfs, find?_range'_first f k (s + 1) p]
      have hfs0 : f s = false := by
        cases h : f s
        · rfl
        · exact absurd h hfs
      constructor
      · rintro ⟨h1, h2, h3, h4⟩
        refine ⟨by omega, by omega, h3, fun q hq1 hq2 => ?_⟩
        by_cases hqs : q = s
        · subst hqs; exact hfs0
        · exact h4 q (by omega) hq2
      · rintro ⟨h1, h2, h3, h4⟩
        have hps : p ≠ s := by
          intro hq
          subst hq
          rw [h3] at hfs0
          cases hfs0
        exact ⟨by omega, by omega, h3, fun q hq1 hq2 => h4 q (by omega) hq2⟩

theorem bifSearchLoop_range' (x : ℕ → ℚ) (N : ℕ) :
    ∀ (k s period : ℕ),
      bifSearchLoop x N (List.range' s k) period false =
        match (List.range' s k).find?
            (fun j => decide (2 ^ j ≤ N) && decide (|x N - x (N - 2 ^ j)| < BIF_TOL)) with
        | some j => (j, true)
        | none => (period, false)
  | 0, s, period => rfl
  | k + 1, s, period => by
    rw [List.range'_succ]
    simp only [bifSearchLoop]
    by_cases h1 : N < 2 ^ s
    · rw [if_pos h1]
      have hnone : (List.range' (s + 1) k).find?
          (fun j => decide (2 ^ j ≤ N) && decide (|x N - x (N - 2 ^ j)| < BIF_TOL)) = none := by
        rw [List.find?_eq_none]
        intro j hj
        have hsj : s + 1 ≤ j := by
          rw [List.mem_range'] at hj
          omega
        have hpow : 2 ^ s ≤ 2 ^ j := Nat.pow_le_pow_right (by norm_num) (by omega)
        simp only [Bool.and_eq_true, decide_eq_true_eq, not_and]
        intro hle
        omega
      rw [List.find?_cons_of_neg, hnone]
      simp only [Bool.and_eq_true, decide_eq_true_eq, not_and]
      intro hle
      omega
    · rw [if_neg h1]
      by_cases h2 : |x N - x (N - 2 ^ s)| < BIF_TOL
      · have hcond : |x N - x (N - 2 ^ s)| < BIF_TOL ∧ True := ⟨h2, trivial⟩
        rw [if_pos hcond, bifSearchLoop_found]
        rw [List.find?_cons_of_pos]
        simp only [Bool.and_eq_true, decide_eq_true_eq]
        exact ⟨by omega, h2⟩
      · rw [if_neg (by simp [h2]), List.find?_cons_of_neg, bifSearchLoop_range' x N k (s + 1) period]
        simp only [Bool.and_eq_true, decide_eq_true_eq, not_and]
        intro _
        exact h2

theorem bifSearch_eq_find? (x : ℕ → ℚ) (N : ℕ) :
    bifSearch x N =
      match (List.range' 0 (bifS + 1)).find?
          (fun j => decide (2 ^ j ≤ N) && decide (|x N - x (N - 2 ^ j)| < BIF_TOL)) with
      | some j => (j, true)
      | none => (bifS, false) := by
  rw [bifSearch, List.range_eq_range']
  exact bifSearchLoop_range' x N (bifS + 1) 0 bifS

theorem bifSearch_spec (x : ℕ → ℚ) (N : ℕ) :
    ((bifSearch x N).2 = true ↔
      ∃ j, j ≤ bifS ∧ 2 ^ j ≤ N ∧ |x N - x (N - 2 ^ j)| < BIF_TOL) ∧
    ((bifSearch x N).2 = true →
      IsLeast {j | j ≤ bifS ∧ 2 ^ j ≤ N ∧ |x N - x (N - 2 ^ j)| < BIF_TOL}
        (bifSearch x N).1) := by
  rw [bifSearch_eq_find?]
  cases hf : (List.range' 0 (bifS + 1)).find?
      (fun j => decide (2 ^ j ≤ N) && decide (|x N - x (N - 2 ^ j)| < BIF_TOL)) with
  | none =>
    rw [List.find?_eq_none] at hf
    refine ⟨⟨fun h => Bool.noConfusion h, ?_⟩, fun h => Bool.noConfusion h⟩
    rintro ⟨j, hj, hle, htol⟩
    have hmem : j ∈ List.range' 0 (bifS + 1) := by
      rw [List.mem_range']
      exact ⟨j, by omega, by omega⟩
    have hj2 := hf j hmem
    simp only [Bool.and_eq_true, decide_eq_true_eq, not_and] at hj2
    exact (hj2 hle htol).elim
  | some j =>
    rw [find?_range'_first] at hf
    obtain ⟨_, hjlt, hfj, hmin⟩ := hf
    simp only [Bool.and_eq_true, decide_eq_true_eq] at hfj
    have hjle : j ≤ bifS := by omega
    refine ⟨⟨fun _ => ⟨j, hjle, hfj.1, hfj.2⟩, fun _ => rfl⟩,
            fun _ => ⟨⟨hjle, hfj.1, hfj.2⟩, ?_⟩⟩
    rintro b ⟨hb1, hb2, hb3⟩
    show j ≤ b
    by_contra hlt
    push_neg at hlt
    have hq := hmin b (by omega) (by omega)
    rw [Bool.eq_false_iff] at hq
    simp only [ne_eq, Bool.and_eq_true, decide_eq_true_eq, not_and] at hq
    exact hq hb2 hb3

/-- Claim C1 (amended): for every non-diverged sweep value, the period search
reports found exactly when some `j ≤ 12` with `2^j ≤ N` makes the x
coordinates (only x — the source never compares y here) at indices `N` and
`N - 2^j` agree within `1e-5`, and the recorded exponent is the smallest such
`j` (first match wins). -/
theorem bif_period_detection (stepAt : ℚ → ℚ × ℚ → ℚ × ℚ) (ic : ℚ × ℚ) (N : ℕ) (a : ℚ)
    (hnd : divergedB (stepAt a) ic N = false) :
    ((bifSearch (trajX stepAt ic a) N).2 = true ↔
      ∃ j, j ≤ bifS ∧ 2 ^ j ≤ N ∧
        |trajX stepAt ic a N - trajX stepAt ic a (N - 2 ^ j)| < BIF_TOL) ∧
    ((bifSearch (trajX stepAt ic a) N).2 = true →
      IsLeast {j | j ≤ bifS ∧ 2 ^ j ≤ N ∧
        |trajX stepAt ic a N - trajX stepAt ic a (N - 2 ^ j)| < BIF_TOL}
        (bifSearch (trajX stepAt ic a) N).1) :=
  bifSearch_spec (trajX stepAt ic a) N

/-- Witness for claim C1 at the identity map, `ic = (1, 2)`, `N = 1`. -/
theorem bif_period_detection_witness :
    divergedB (stepId 0) (1, 2) 1 = false ∧
    (((bifSearch (trajX stepId (1, 2) 0) 1).2 = true ↔
      ∃ j, j ≤ bifS ∧ 2 ^ j ≤ 1 ∧
        |trajX stepId (1, 2) 0 1 - trajX stepId (1, 2) 0 (1 - 2 ^ j)| < BIF_TOL) ∧
    ((bifSearch (trajX stepId (1, 2) 0) 1).2 = true →
      IsLeast {j | j ≤ bifS ∧ 2 ^ j ≤ 1 ∧
        |trajX stepId (1, 2) 0 1 - trajX stepId (1, 2) 0 (1 - 2 ^ j)| < BIF_TOL}
        (bifSearch (trajX stepId (1, 2) 0) 1).1)) :=
  ⟨by norm_num [divergedB, traj, stepId, DIVERGE_LIMIT],
   bif_period_detection stepId (1, 2) 1 0
     (by norm_num [divergedB, traj, stepId, DIVERGE_LIMIT])⟩

/-- Counterexample to claim C1 as stated: for the map `(x, y) ↦ (x, y + 1)`
at `N = 1` the sweep value does not diverge and the source reports a period
found (the x coordinates repeat), yet no `j ≤ 12` satisfies the claimed
both-coordinate tolerance test, since y drifts by one each step. -/
theorem bif_period_both_coords_counterexample :
    divergedB (stepYShift 0) (0, 0) 1 = false ∧
    (bifSearch (trajX stepYShift (0, 0) 0) 1).2 = true ∧
    ∀ j ≤ bifS, ¬(2 ^ j ≤ 1 ∧
      |trajX stepYShift (0, 0) 0 1 - trajX stepYShift (0, 0) 0 (1 - 2 ^ j)| < BIF_TOL ∧
      |trajY stepYShift (0, 0) 0 1 - trajY stepYShift (0, 0) 0 (1 - 2 ^ j)| < BIF_TOL) := by
  refine ⟨by simp [divergedB, traj, stepYShift, DIVERGE_LIMIT], ?_, ?_⟩
  · rw [bifSearch, show List.range (bifS + 1) = [0, 1, 2, 3, 4, 5, 6, 7, 8, 9, 10, 11, 12] by decide]
    rw [bifSearchLoop]
    norm_num [trajX, traj, stepYShift, BIF_TOL]
    rw [bifSearchLoop]
    norm_num
  · intro j hj
    simp only [bifS] at hj
    rintro ⟨h1, _, h3⟩
    interval_cases j
    · norm_num [trajY, traj, stepYShift, BIF_TOL] at h3
    all_goals norm_num at h1

/-! ## Sweep divergence (claim C2) -/

theorem computeLoop_points (stepAt : ℚ → ℚ × ℚ → ℚ × ℚ) (ic : ℚ × ℚ) (N : ℕ) :
    ∀ (as : List ℚ) (pts : List (ℚ × ℚ × ℚ)) (tbl : List (ℕ × ℚ)),
      (computeLoop stepAt ic N as (pts, tbl)).1 = pts ++ sweepPoints stepAt ic N as
  | [], pts, tbl => by simp [computeLoop, sweepPoints]
  | a :: rest, pts, tbl => by
    cases hd : divergedB (stepAt a) ic N with
    | true =>
      simp only [computeLoop, sweepPoints, sweepContribution, hd, if_true]
      rw [computeLoop_points stepAt ic N rest pts tbl]
      simp
    | false =>
      simp only [computeLoop, sweepPoints, sweepContribution, hd]
      rw [if_neg Bool.false_ne_true, if_neg Bool.false_ne_true,
        computeLoop_points stepAt ic N rest]
      simp

/-- Claim C2 (amended): a sweep value whose trajectory exceeds the `1e10`
threshold in the x coordinate (only x is tested by the source) at any of the
`N` steps is marked diverged and contributes no points at all to the sweep
output, which is the concatenation of the per-value contributions. -/
theorem sweep_divergence_discard (stepAt : ℚ → ℚ × ℚ → ℚ × ℚ) (ic : ℚ × ℚ) (N : ℕ)
    (a : ℚ) (as : List ℚ)
    (h : ∃ i, i < N ∧ DIVERGE_LIMIT < |(traj (stepAt a) ic (i + 1)).1|) :
    divergedB (stepAt a) ic N = true ∧
    sweepContribution stepAt ic N a = [] ∧
    (compute stepAt ic N as).1 = sweepPoints stepAt ic N as := by
  have hd : divergedB (stepAt a) ic N = true := by
    rw [divergedB, List.any_eq_true]
    obtain ⟨i, hi, hgt⟩ := h
    refine ⟨i, List.mem_range.mpr hi, ?_⟩
    rw [decide_eq_true_eq]
    exact hgt
  refine ⟨hd, by simp [sweepContribution, hd], ?_⟩
  rw [compute, computeLoop_points]
  simp

/-- Witness for claim C2 at a map that blows up in x immediately. -/
theorem sweep_divergence_discard_witness :
    (∃ i, i < 1 ∧ DIVERGE_LIMIT < |(traj (stepXBlow 0) (0, 0) (i + 1)).1|) ∧
    (divergedB (stepXBlow 0) (0, 0) 1 = true ∧
      sweepContribution stepXBlow (0, 0) 1 0 = [] ∧
      (compute stepXBlow (0, 0) 1 [0]).1 = sweepPoints stepXBlow (0, 0) 1 [0]) :=
  ⟨⟨0, by norm_num, by norm_num [traj, stepXBlow, DIVERGE_LIMIT]⟩,
   sweep_divergence_discard stepXBlow (0, 0) 1 0 [0]
     ⟨0, by norm_num, by norm_num [traj, stepXBlow, DIVERGE_LIMIT]⟩⟩

/-- Counterexample to claim C2 as stated: for the map sending everything to
`(0, 2·10^10)` the y coordinate exceeds the threshold at step 1, yet the
source does not mark the value diverged (it tests only x) and the value still
contributes plot points. -/
theorem sweep_divergence_y_counterexample :
    DIVERGE_LIMIT < |(traj (stepYBlow 0) (0, 1) 1).2| ∧
    divergedB (stepYBlow 0) (0, 1) 1 = false ∧
    sweepContribution stepYBlow (0, 1) 1 0 ≠ [] := by
  have hd : divergedB (stepYBlow 0) (0, 1) 1 = false := by
    norm_num [divergedB, traj, stepYBlow, DIVERGE_LIMIT]
  refine ⟨by norm_num [traj, stepYBlow, DIVERGE_LIMIT], hd, ?_⟩
  have hlen : (sweepContribution stepYBlow (0, 1) 1 0).length =
      orbitLen (trajX stepYBlow (0, 1) 0) 1 + 1 := by
    rw [sweepContribution, if_neg (by rw [hd]; exact Bool.false_ne_true)]
    simp [emitAt]
  intro hnil
  rw [hnil] at hlen
  simp at hlen

/-! ## Sweep emission tail (claim C3) -/

theorem range_drop (t d : ℕ) : (List.range t).drop d = List.range' d (t - d) := by
  apply List.ext_getElem
  · simp
  · intro i h1 h2
    simp

theorem orbitLen_le (x : ℕ → ℚ) (N : ℕ) : orbitLen x N ≤ N := by
  rw [orbitLen]
  cases hf : (bifSearch x N).2 with
  | false => simp
  | true =>
    have hl := (bifSearch_spec x N).2 hf
    simp only [if_true]
    exact hl.1.2.1

theorem emitAt_eq_drop (x y : ℕ → ℚ) (a : ℚ) (N : ℕ) :
    emitAt x y a N =
      ((List.range (N + 1)).map (fun k => (a, x k, y k))).drop (N - orbitLen x N) := by
  have hle := orbitLen_le x N
  rw [emitAt, ← List.map_drop, range_drop]
  have harith : N + 1 - (N - orbitLen x N) = orbitLen x N + 1 := by omega
  rw [harith]

/-- Claim C3 (amended): a non-diverged sweep value emits the trajectory
states at indices `N - orbitLen` through `N` inclusive — that is
`orbitLen + 1` points, one more than the claimed count — where `orbitLen` is
the detected period when found and `min 256 N` otherwise. -/
theorem sweep_emit_tail (stepAt : ℚ → ℚ × ℚ → ℚ × ℚ) (ic : ℚ × ℚ) (N : ℕ) (a : ℚ)
    (hnd : divergedB (stepAt a) ic N = false) :
    sweepContribution stepAt ic N a =
      (((List.range (N + 1)).map
          (fun k => (a, trajX stepAt ic a k, trajY stepAt ic a k))).drop
        (N - orbitLen (trajX stepAt ic a) N)) ∧
    (sweepContribution stepAt ic N a).length = orbitLen (trajX stepAt ic a) N + 1 ∧
    orbitLen (trajX stepAt ic a) N =
      (if (bifSearch (trajX stepAt ic a) N).2 = true
       then 2 ^ (bifSearch (trajX stepAt ic a) N).1 else min 256 N) := by
  refine ⟨?_, ?_, rfl⟩
  · rw [sweepContribution, if_neg (by simp [hnd]), emitAt_eq_drop]
  · rw [sweepContribution, if_neg (by simp [hnd])]
    simp [emitAt]

/-- Witness for claim C3 at the identity map, `ic = (1, 2)`, `N = 1`. -/
theorem sweep_emit_tail_witness :
    divergedB (stepId 1) (1, 2) 1 = false ∧
    (sweepContribution stepId (1, 2) 1 1 =
      (((List.range (1 + 1)).map
          (fun k => ((1 : ℚ), trajX stepId (1, 2) 1 k, trajY stepId (1, 2) 1 k))).drop
        (1 - orbitLen (trajX stepId (1, 2) 1) 1)) ∧
    (sweepContribution stepId (1, 2) 1 1).length = orbitLen (trajX stepId (1, 2) 1) 1 + 1 ∧
    orbitLen (trajX stepId (1, 2) 1) 1 =
      (if (bifSearch (trajX stepId (1, 2) 1) 1).2 = true
       then 2 ^ (bifSearch (trajX stepId (1, 2) 1) 1).1 else min 256 1)) :=
  ⟨by norm_num [divergedB, traj, stepId, DIVERGE_LIMIT],
   sweep_emit_tail stepId (1, 2) 1 1
     (by norm_num [divergedB, traj, stepId, DIVERGE_LIMIT])⟩

/-- Counterexample to claim C3 as stated: for the constant map at `N = 1` a
period is found with detected period 1, yet two points (not one) are emitted:
the loop `for k = start; k <= N` is inclusive on both ends. -/
theorem sweep_emit_offbyone_counterexample :
    divergedB (stepConst 0) (0, 1) 1 = false ∧
    (bifSearch (trajX stepConst (0, 1) 0) 1).2 = true ∧
    2 ^ (bifSearch (trajX stepConst (0, 1) 0) 1).1 = 1 ∧
    (sweepContribution stepConst (0, 1) 1 0).length = 2 := by
  have hd : divergedB (stepConst 0) (0, 1) 1 = false := by
    norm_num [divergedB, traj, stepConst, DIVERGE_LIMIT]
  have hb : bifSearch (trajX stepConst (0, 1) 0) 1 = (0, true) := by
    rw [bifSearch,
      show List.range (bifS + 1) = [0, 1, 2, 3, 4, 5, 6, 7, 8, 9, 10, 11, 12] by decide]
    rw [bifSearchLoop]
    norm_num [trajX, traj, stepConst, BIF_TOL]
    rw [bifSearchLoop]
    norm_num
  refine ⟨hd, by simp [hb], by simp [hb], ?_⟩
  rw [sweepContribution, if_neg (by rw [hd]; exact Bool.false_ne_true)]
  simp [emitAt, orbitLen, hb]

/-! ## Period-doubling table (claim C6) -/

theorem computeLoop_table (stepAt : ℚ → ℚ × ℚ → ℚ × ℚ) (ic : ℚ × ℚ) (N : ℕ) :
    ∀ (as : List ℚ) (pts : List (ℚ × ℚ × ℚ)) (tbl : List (ℕ × ℚ)),
      (computeLoop stepAt ic N as (pts, tbl)).2 = tableGo (sweepOutcome stepAt ic N) as tbl
  | [], _, _ => rfl
  | a :: rest, pts, tbl => by
    by_cases hd : divergedB (stepAt a) ic N = true
    · have hout : sweepOutcome stepAt ic N a = none := by
        rw [sweepOutcome, if_pos hd]
      simp only [computeLoop, if_pos hd, tableGo, hout]
      exact computeLoop_table stepAt ic N rest pts tbl
    · by_cases hp : (bifSearch (trajX stepAt ic a) N).2 = true
      · have hout : sweepOutcome stepAt ic N a =
            some (2 ^ (bifSearch (trajX stepAt ic a) N).1) := by
          rw [sweepOutcome, if_neg hd, if_pos hp]
        by_cases hk : hasKey tbl (2 ^ (bifSearch (trajX stepAt ic a) N).1) = true
        · simp only [computeLoop, if_neg hd, tableGo, hout, if_pos hk]
          rw [if_neg (by simp [hk])]
          exact computeLoop_table stepAt ic N rest _ tbl
        · simp only [computeLoop, if_neg hd, tableGo, hout, if_neg hk]
          rw [if_pos ⟨hp, Bool.eq_false_iff.mpr hk⟩]
          exact computeLoop_table stepAt ic N rest _ _
      · have hout : sweepOutcome stepAt ic N a = none := by
          rw [sweepOutcome, if_neg hd, if_neg hp]
        simp only [computeLoop, if_neg hd, tableGo, hout]
        rw [if_neg (by simp [hp])]
        exact computeLoop_table stepAt ic N rest _ tbl

theorem hasKey_iff (tbl : List (ℕ × ℚ)) (k : ℕ) :
    hasKey tbl k = true ↔ k ∈ tbl.map Prod.fst := by
  simp [hasKey, List.any_eq_true, List.mem_map]

theorem tableGo_nodup (out : ℚ → Option ℕ) :
    ∀ (as : List ℚ) (tbl : List (ℕ × ℚ)),
      (tbl.map Prod.fst).Nodup → ((tableGo out as tbl).map Prod.fst).Nodup
  | [], _, h => h
  | a :: rest, tbl, h => by
    cases hout : out a with
    | none =>
      simp only [tableGo, hout]
      exact tableGo_nodup out rest tbl h
    | some dp =>
      simp only [tableGo, hout]
      by_cases hk : hasKey tbl dp = true
      · rw [if_pos hk]
        exact tableGo_nodup out rest tbl h
      · rw [if_neg hk]
        apply tableGo_nodup
        rw [List.map_append]
        rw [List.nodup_append]
        refine ⟨h, by simp, ?_⟩
        intro x hx hxs
        simp only [List.map_cons, List.map_nil, List.mem_singleton] at hxs
        subst hxs
        exact hk ((hasKey_iff tbl x).mpr hx)

theorem tableGo_mem (out : ℚ → Option ℕ) :
    ∀ (as : List ℚ), List.Sorted (· < ·) as →
      ∀ (tbl : List (ℕ × ℚ)) (dp : ℕ) (a : ℚ), (dp, a) ∈ tableGo out as tbl →
        (dp, a) ∈ tbl ∨
        (hasKey tbl dp = false ∧ a ∈ as ∧ out a = some dp ∧
          ∀ b ∈ as, b < a → out b ≠ some dp)
  | [], _, _, _, _, h => Or.inl h
  | c :: rest, hs, tbl, dp, a, h => by
    rw [List.sorted_cons] at hs
    obtain ⟨hcb, hrest⟩ := hs
    cases hout : out c with
    | none =>
      simp only [tableGo, hout] at h
      rcases tableGo_mem out rest hrest tbl dp a h with h1 | ⟨h1, h2, h3, h4⟩
      · exact Or.inl h1
      · refine Or.inr ⟨h1, List.mem_cons_of_mem c h2, h3, ?_⟩
        intro b hb hba
        rcases List.mem_cons.mp hb with rfl | hbr
        · rw [hout]
          exact fun he => Option.noConfusion he
        · exact h4 b hbr hba
    | some dpc =>
      simp only [tableGo, hout] at h
      by_cases hk : hasKey tbl dpc = true
      · rw [if_pos hk] at h
        rcases tableGo_mem out rest hrest tbl dp a h with h1 | ⟨h1, h2, h3, h4⟩
        · exact Or.inl h1
        · have hne : dp ≠ dpc := by
            intro he
            rw [he, hk] at h1
            cases h1
          refine Or.inr ⟨h1, List.mem_cons_of_mem c h2, h3, ?_⟩
          intro b hb hba
          rcases List.mem_cons.mp hb with rfl | hbr
          · rw [hout]
            intro he
            injection he with he
            exact hne he.symm
          · exact h4 b hbr hba
      · rw [if_neg hk] at h
        have hk0 : hasKey tbl dpc = false := Bool.eq_false_iff.mpr hk
        rcases tableGo_mem out rest hrest (tbl ++ [(dpc, c)]) dp a h with h1 | ⟨h1, h2, h3, h4⟩
        · rcases List.mem_append.mp h1 with h1l | h1r
          · exact Or.inl h1l
          · simp only [List.mem_singleton] at h1r
            injection h1r with e1 e2
            refine Or.inr ⟨e1 ▸ hk0, ?_, ?_, ?_⟩
            · rw [e2]
              exact List.mem_cons_self c rest
            · rw [e1, e2]
              exact hout
            · intro b hb hba
              rw [e2] at hba
              rcases List.mem_cons.mp hb with hbc | hbr
              · rw [hbc] at hba
                exact absurd hba (lt_irrefl c)
              · exact absurd hba (not_lt_of_gt (hcb b hbr))
        · have hk2 : hasKey tbl dp = false ∧ dp ≠ dpc := by
            rw [hasKey, List.any_append] at h1
            simp only [Bool.or_eq_false_iff] at h1
            constructor
            · rw [hasKey]
              exact h1.1
            · intro he
              subst he
              simp [hasKey, List.any_cons] at h1
          refine Or.inr ⟨hk2.1, List.mem_cons_of_mem c h2, h3, ?_⟩
          intro b hb hba
          rcases List.mem_cons.mp hb with rfl | hbr
          · rw [hout]
            intro he
            injection he with he
            exact hk2.2 he.symm
          · exact h4 b hbr hba

/-- Claim C6: during a sweep the period-doubling table maps each detected
period to at most one parameter value — the first (hence, for an ascending
sweep, least) value of `a` at which it was detected — and entries exist only
for values where a period was found (encoded by `sweepOutcome = some`). -/
theorem period_table_first_occurrence (stepAt : ℚ → ℚ × ℚ → ℚ × ℚ) (ic : ℚ × ℚ) (N : ℕ)
    (as : List ℚ) (hs : List.Sorted (· < ·) as) :
    (((compute stepAt ic N as).2.map Prod.fst).Nodup) ∧
    ∀ dp a, (dp, a) ∈ (compute stepAt ic N as).2 →
      a ∈ as ∧ sweepOutcome stepAt ic N a = some dp ∧
        ∀ b ∈ as, b < a → sweepOutcome stepAt ic N b ≠ some dp := by
  have htbl : (compute stepAt ic N as).2 = tableGo (sweepOutcome stepAt ic N) as [] := by
    rw [compute, computeLoop_table]
  rw [htbl]
  constructor
  · exact tableGo_nodup _ as [] (by simp)
  · intro dp a hmem
    rcases tableGo_mem _ as hs [] dp a hmem with h1 | ⟨_, h2, h3, h4⟩
    · cases h1
    · exact ⟨h2, h3, h4⟩

/-- Witness for claim C6 on the two-value ascending sweep `[0, 1]` of the
constant map. -/
theorem period_table_first_occurrence_witness :
    List.Sorted (· < ·) ([0, 1] : List ℚ) ∧
    ((((compute stepConst (0, 1) 1 [0, 1]).2.map Prod.fst).Nodup) ∧
      ∀ dp a, (dp, a) ∈ (compute stepConst (0, 1) 1 [0, 1]).2 →
        a ∈ [0, 1] ∧ sweepOutcome stepConst (0, 1) 1 a = some dp ∧
          ∀ b ∈ [0, 1], b < a → sweepOutcome stepConst (0, 1) 1 b ≠ some dp) := by
  have hs : List.Sorted (· < ·) ([0, 1] : List ℚ) := by
    norm_num [List.sorted_cons]
  exact ⟨hs, period_table_first_occurrence stepConst (0, 1) 1 [0, 1] hs⟩

/-! ## Live-engine divergence (claims C5 and C10) -/

theorem applyOnce_diverged_of (cfg : IterCfg) (s : IterSt)
    (h : DIVERGE_LIMIT < |(cfg.stepF (s.curX, s.curY)).1| ∨
         DIVERGE_LIMIT < |(cfg.stepF (s.curX, s.curY)).2|) :
    (applyOnce cfg s).diverged = true := by
  simp only [applyOnce]
  rw [if_pos h]

theorem tick_diverged_fixed (cfg : IterCfg) (t : IterSt) (ht : t.diverged = true) :
    tick cfg t = t := by
  have hburst : tickBurst cfg t = t := by
    rw [tickBurst, if_neg]
    rintro ⟨h1, _⟩
    rw [ht] at h1
    cases h1
  rw [tick, hburst, tickFinal, if_pos ht]
  split_ifs <;> rfl

/-- Claim C5: a computed state beyond the `1e10` magnitude threshold in
either coordinate marks the run diverged; once diverged, a tick changes
neither the step counter nor the current state (nor anything else), and the
flag stays set; only `doReset` and `beginOrbit` (reset/seed) clear it. -/
theorem divergence_terminal (cfg : IterCfg) (s t : IterSt) (x y : ℚ)
    (hs : DIVERGE_LIMIT < |(cfg.stepF (s.curX, s.curY)).1| ∨
          DIVERGE_LIMIT < |(cfg.stepF (s.curX, s.curY)).2|)
    (ht : t.diverged = true) :
    (applyOnce cfg s).diverged = true ∧
    (tick cfg t).curStep = t.curStep ∧
    (tick cfg t).curX = t.curX ∧
    (tick cfg t).curY = t.curY ∧
    (tick cfg t).diverged = true ∧
    doReset.diverged = false ∧
    (beginOrbit x y).diverged = false := by
  have hfix := tick_diverged_fixed cfg t ht
  exact ⟨applyOnce_diverged_of cfg s hs, by rw [hfix], by rw [hfix], by rw [hfix],
    by rw [hfix]; exact ht, rfl, rfl⟩

/-- Witness for claim C5 at a map that leaves the region instantly. -/
theorem divergence_terminal_witness :
    (DIVERGE_LIMIT < |(blowCfg.stepF ((beginOrbit 0 0).curX, (beginOrbit 0 0).curY)).1| ∨
     DIVERGE_LIMIT < |(blowCfg.stepF ((beginOrbit 0 0).curX, (beginOrbit 0 0).curY)).2|) ∧
    divergedSt.diverged = true ∧
    ((applyOnce blowCfg (beginOrbit 0 0)).diverged = true ∧
      (tick blowCfg divergedSt).curStep = divergedSt.curStep ∧
      (tick blowCfg divergedSt).curX = divergedSt.curX ∧
      (tick blowCfg divergedSt).curY = divergedSt.curY ∧
      (tick blowCfg divergedSt).diverged = true ∧
      doReset.diverged = false ∧
      (beginOrbit 3 4).diverged = false) :=
  ⟨Or.inl (by norm_num [blowCfg, beginOrbit, DIVERGE_LIMIT]), rfl,
   divergence_terminal blowCfg (beginOrbit 0 0) divergedSt 3 4
     (Or.inl (by norm_num [blowCfg, beginOrbit, DIVERGE_LIMIT])) rfl⟩

/-- Claim C10: the state that triggers divergence becomes the current state
reported by `getState` (with the step counter incremented), but is appended
neither to the bounded orbit window nor to the period-detection history. -/
theorem diverging_step_observable (cfg : IterCfg) (s : IterSt)
    (h : DIVERGE_LIMIT < |(cfg.stepF (s.curX, s.curY)).1| ∨
         DIVERGE_LIMIT < |(cfg.stepF (s.curX, s.curY)).2|) :
    (getState (applyOnce cfg s)).x = (cfg.stepF (s.curX, s.curY)).1 ∧
    (getState (applyOnce cfg s)).y = (cfg.stepF (s.curX, s.curY)).2 ∧
    (getState (applyOnce cfg s)).step = s.curStep + 1 ∧
    (applyOnce cfg s).orbit = s.orbit ∧
    (applyOnce cfg s).historyX = s.historyX ∧
    (applyOnce cfg s).historyY = s.historyY := by
  simp only [applyOnce, getState]
  rw [if_pos h]
  exact ⟨rfl, rfl, rfl, rfl, rfl, rfl⟩

/-- Witness for claim C10: the diverging first step of `blowCfg`. -/
theorem diverging_step_observable_witness :
    (DIVERGE_LIMIT < |(blowCfg.stepF ((beginOrbit 0 0).curX, (beginOrbit 0 0).curY)).1| ∨
     DIVERGE_LIMIT < |(blowCfg.stepF ((beginOrbit 0 0).curX, (beginOrbit 0 0).curY)).2|) ∧
    ((getState (applyOnce blowCfg (beginOrbit 0 0))).x =
        (blowCfg.stepF ((beginOrbit 0 0).curX, (beginOrbit 0 0).curY)).1 ∧
      (getState (applyOnce blowCfg (beginOrbit 0 0))).y =
        (blowCfg.stepF ((beginOrbit 0 0).curX, (beginOrbit 0 0).curY)).2 ∧
      (getState (applyOnce blowCfg (beginOrbit 0 0))).step = (beginOrbit 0 0).curStep + 1 ∧
      (applyOnce blowCfg (beginOrbit 0 0)).orbit = (beginOrbit 0 0).orbit ∧
      (applyOnce blowCfg (beginOrbit 0 0)).historyX = (beginOrbit 0 0).historyX ∧
      (applyOnce blowCfg (beginOrbit 0 0)).historyY = (beginOrbit 0 0).historyY) :=
  ⟨Or.inl (by norm_num [blowCfg, beginOrbit, DIVERGE_LIMIT]),
   diverging_step_observable blowCfg (beginOrbit 0 0)
     (Or.inl (by norm_num [blowCfg, beginOrbit, DIVERGE_LIMIT]))⟩

/-! ## Scrub round trip (claim C7) -/

theorem curInv_beginOrbit (cfg : IterCfg) (x y : ℚ) : curInv cfg (beginOrbit x y) := rfl

theorem curInv_applyOnce (cfg : IterCfg) (s : IterSt) (h : curInv cfg s) :
    curInv cfg (applyOnce cfg s) := by
  rw [curInv] at h ⊢
  simp only [applyOnce]
  split_ifs <;>
  · simp only [traj]
    rw [← h]

theorem curInv_innerLoop (cfg : IterCfg) :
    ∀ (n : ℕ) (s : IterSt), curInv cfg s → curInv cfg (innerLoop cfg n s)
  | 0, _, h => h
  | n + 1, s, h => by
    rw [innerLoop]
    split_ifs with h1
    · exact h
    · exact curInv_innerLoop cfg n (applyOnce cfg s) (curInv_applyOnce cfg s h)

theorem curInv_applyDetect (cfg : IterCfg) (s : IterSt) (h : curInv cfg s) :
    curInv cfg (applyDetect s) := by
  rw [curInv] at h ⊢
  rw [applyDetect]
  split_ifs with h1
  · exact h
  · cases hf : findPeriod s.historyX s.historyY s.historyX.length with
    | none => exact h
    | some p => exact h

theorem curInv_tick (cfg : IterCfg) (s : IterSt) (h : curInv cfg s) :
    curInv cfg (tick cfg s) := by
  rw [tick]
  split_ifs with hw
  · exact h
  · have hb : curInv cfg (tickBurst cfg s) := by
      simp only [tickBurst]
      split_ifs with h1 h2
      · exact curInv_applyDetect cfg _ (curInv_innerLoop cfg cfg.speed s h)
      · exact curInv_innerLoop cfg cfg.speed s h
      · exact h
    rw [tickFinal]
    split_ifs with h1 h2 h3
    · exact hb
    · exact curInv_applyDetect cfg _ hb
    · exact hb
    · exact hb

theorem curInv_iterate (cfg : IterCfg) (x0 y0 : ℚ) :
    ∀ n : ℕ, curInv cfg ((tick cfg)^[n] (beginOrbit x0 y0))
  | 0 => curInv_beginOrbit cfg x0 y0
  | n + 1 => by
    rw [Function.iterate_succ_apply']
    exact curInv_tick cfg _ (curInv_iterate cfg x0 y0 n)

/-- Claim C7 (spec-modelled scrubbing layer): after seeding and any number of
ticks, freezing playback at the current step displays exactly the live state,
and `setPlaybackStep` leaves the underlying simulation — in particular
`detectedPeriod` and `cyclePoints` — untouched. -/
theorem scrub_round_trip (cfg : IterCfg) (x0 y0 : ℚ) (n : ℕ) (k : Option ℕ) :
    displayedState cfg.stepF
        (setPlaybackStep (some ((tick cfg)^[n] (beginOrbit x0 y0)).curStep)
          ⟨(tick cfg)^[n] (beginOrbit x0 y0), none⟩) =
      (((tick cfg)^[n] (beginOrbit x0 y0)).curX,
        ((tick cfg)^[n] (beginOrbit x0 y0)).curY) ∧
    (setPlaybackStep k ⟨(tick cfg)^[n] (beginOrbit x0 y0), none⟩).sim =
      (tick cfg)^[n] (beginOrbit x0 y0) ∧
    (setPlaybackStep k ⟨(tick cfg)^[n] (beginOrbit x0 y0), none⟩).sim.detectedPeriod =
      ((tick cfg)^[n] (beginOrbit x0 y0)).detectedPeriod ∧
    (setPlaybackStep k ⟨(tick cfg)^[n] (beginOrbit x0 y0), none⟩).sim.cyclePoints =
      ((tick cfg)^[n] (beginOrbit x0 y0)).cyclePoints := by
  have hinv := curInv_iterate cfg x0 y0 n
  rw [curInv] at hinv
  exact ⟨hinv.symm, rfl, rfl, rfl⟩

/-! ## Live period detection (claim C4) -/

theorem periodMatches_iff (hx hy : List ℚ) (L p : ℕ) :
    periodMatches hx hy L p = true ↔ lagAgrees hx hy L p := by
  rw [periodMatches, List.all_eq_true, lagAgrees]
  constructor
  · intro h i hi
    have hm := h i (List.mem_range.mpr (by omega))
    rw [periodMatchAt, if_neg (by omega)] at hm
    simp only [Bool.and_eq_true, decide_eq_true_eq] at hm
    exact hm
  · intro h i hi
    rw [List.mem_range] at hi
    rw [periodMatchAt, if_neg (by omega)]
    simp only [Bool.and_eq_true, decide_eq_true_eq]
    exact h i (by omega)

theorem cycleOf_eq_drop (hx hy : List ℚ) (L p : ℕ)
    (hxL : hx.length = L) (hyL : hy.length = L) (hp : p ≤ L) :
    cycleOf hx hy L p = (hx.zip hy).drop (L - p) := by
  apply List.ext_getElem
  · simp [cycleOf, List.length_zip, hxL, hyL]
    omega
  · intro i h1 h2
    have hip : i < p := by
      simpa [cycleOf] using h1
    have hix : L - p + i < hx.length := by omega
    have hiy : L - p + i < hy.length := by omega
    simp only [cycleOf, List.getElem_map, List.getElem_range, List.getElem_drop,
      List.getElem_zip]
    rw [List.getD_eq_getElem _ _ hix, List.getD_eq_getElem _ _ hiy]

theorem applyDetect_none (s : IterSt) (h2 : ¬(s.historyX.length < 2))
    (hf : findPeriod s.historyX s.historyY s.historyX.length = none) :
    applyDetect s = { s with detectedPeriod := none } := by
  rw [applyDetect, if_neg h2, hf]

theorem applyDetect_some (s : IterSt) (p : ℕ) (h2 : ¬(s.historyX.length < 2))
    (hf : findPeriod s.historyX s.historyY s.historyX.length = some p) :
    applyDetect s =
      { s with detectedPeriod := some p
               cyclePoints := cycleOf s.historyX s.historyY s.historyX.length p } := by
  rw [applyDetect, if_neg h2, hf]

theorem findPeriod_spec (hx hy : List ℚ) (L p : ℕ) :
    findPeriod hx hy L = some p ↔
      (1 ≤ p ∧ p ≤ min MAX_PERIOD_CHECK (L / 2) ∧ lagAgrees hx hy L p ∧
        ∀ q < p, 1 ≤ q → ¬lagAgrees hx hy L q) := by
  rw [findPeriod, find?_range'_first]
  constructor
  · rintro ⟨h1, h2, h3, h4⟩
    refine ⟨h1, by omega, (periodMatches_iff hx hy L p).mp h3, ?_⟩
    intro q hq hq1 hlag
    have hfalse := h4 q hq1 hq
    rw [(periodMatches_iff hx hy L q).mpr hlag] at hfalse
    cases hfalse
  · rintro ⟨h1, h2, h3, h4⟩
    refine ⟨h1, by omega, (periodMatches_iff hx hy L p).mpr h3, ?_⟩
    intro q hq1 hq2
    have hnl := h4 q hq2 hq1
    cases hpm : periodMatches hx hy L q with
    | false => rfl
    | true => exact absurd ((periodMatches_iff hx hy L q).mp hpm) hnl

/-- Claim C4: on a post-transient history of length `L ≥ 2`, the live period
detection reports period `p` exactly when `p` is the smallest candidate in
`1..min(128, ⌊L/2⌋)` whose last `min(2p, L-p)` entries agree with the entries
`p` positions earlier within `1e-8` on both coordinates; on success the cycle
points are the last `p` history states in order. -/
theorem live_period_detection (s : IterSt) (L : ℕ)
    (hxL : s.historyX.length = L) (hyL : s.historyY.length = L) (hL : 2 ≤ L) :
    (∀ p : ℕ,
      ((applyDetect s).detectedPeriod = some p ↔
        (1 ≤ p ∧ p ≤ min MAX_PERIOD_CHECK (L / 2) ∧
          lagAgrees s.historyX s.historyY L p ∧
          ∀ q < p, 1 ≤ q → ¬lagAgrees s.historyX s.historyY L q))) ∧
    (∀ p : ℕ, (applyDetect s).detectedPeriod = some p →
      (applyDetect s).cyclePoints = (s.historyX.zip s.historyY).drop (L - p)) := by
  subst hxL
  have hnotlt : ¬(s.historyX.length < 2) := by omega
  cases hf : findPeriod s.historyX s.historyY s.historyX.length with
  | none =>
    rw [applyDetect_none s hnotlt hf]
    constructor
    · intro p
      constructor
      · intro h
        exact Option.noConfusion h
      · rintro ⟨h1, h2, h3, _⟩
        exfalso
        rw [findPeriod, List.find?_eq_none] at hf
        have hmem : p ∈ List.range' 1 (min MAX_PERIOD_CHECK (s.historyX.length / 2)) := by
          rw [List.mem_range']
          exact ⟨p - 1, by omega, by omega⟩
        exact hf p hmem ((periodMatches_iff s.historyX s.historyY s.historyX.length p).mpr h3)
    · intro p h
      exact Option.noConfusion h
  | some p0 =>
    rw [applyDetect_some s p0 hnotlt hf]
    obtain ⟨hp1, hp2, hp3, hp4⟩ :=
      (findPeriod_spec s.historyX s.historyY s.historyX.length p0).mp hf
    constructor
    · intro p
      constructor
      · intro h
        injection h with h
        subst h
        exact ⟨hp1, hp2, hp3, hp4⟩
      · rintro ⟨h1, h2, h3, h4⟩
        have hpp : p = p0 := by
          by_contra hne
          rcases Nat.lt_or_ge p p0 with hlt | hge
          · exact (hp4 p hlt h1) h3
          · exact (h4 p0 (by omega) hp1) hp3
        rw [hpp]
    · intro p h
      injection h with h
      rw [← h]
      exact cycleOf_eq_drop s.historyX s.historyY s.historyX.length p0 rfl hyL (by omega)

/-- Witness for claim C4 on the two-entry fixed-point history `detectSt`. -/
theorem live_period_detection_witness :
    detectSt.historyX.length = 2 ∧ detectSt.historyY.length = 2 ∧ 2 ≤ 2 ∧
    ((∀ p : ℕ,
      ((applyDetect detectSt).detectedPeriod = some p ↔
        (1 ≤ p ∧ p ≤ min MAX_PERIOD_CHECK (2 / 2) ∧
          lagAgrees detectSt.historyX detectSt.historyY 2 p ∧
          ∀ q < p, 1 ≤ q → ¬lagAgrees detectSt.historyX detectSt.historyY 2 q))) ∧
    (∀ p : ℕ, (applyDetect detectSt).detectedPeriod = some p →
      (applyDetect detectSt).cyclePoints =
        (detectSt.historyX.zip detectSt.historyY).drop (2 - p))) :=
  ⟨rfl, rfl, le_refl 2, live_period_detection detectSt 2 rfl rfl (le_refl 2)⟩

end ChaosViz
